import Mathlib

/-
Verification of the block segmentation, prefetch cache and shifted-view
logic of fairseq/data/token_block_dataset.py (class TokenBlockDataset),
over a shallow embedding of the Python code into Lean.

Tokens are modelled as Int, the token stream and buffers as List Int,
block tables as List (Nat × Nat) of half-open ranges, and the Python
cache_index dict as a function Nat → Option (Nat × Nat).
-/

/-- Python basic slicing xs[a:b] for a nonnegative start a and an integer
stop b that may be negative (a negative stop counts from the end of the
list), exactly as numpy basic slicing behaves on the 1-d cache array. -/
def pySlice (xs : List Int) (a : Nat) (b : Int) : List Int :=
  let stop : Nat := if b < 0 then ((xs.length : Int) + b).toNat else min b.toNat xs.length
  (xs.take stop).drop a

/-- The three accepted break modes of TokenBlockDataset.__init__
(break_mode=None is identified with 'none'). -/
inductive BreakMode where
  | none
  | complete
  | eos
deriving DecidableEq

/-- The inner helper block_at of the 'none' branch of __init__:
start = i * block_size, end = min(start + block_size, total_size). -/
def block_at (block_size total_size i : Nat) : Nat × Nat :=
  (i * block_size, min (i * block_size + block_size) total_size)

/-- The 'none' branch of __init__: total_size = sum(sizes),
length = ceil(total_size / block_size), blocks = [block_at i for i in range(length)]. -/
def blocksNone (sizes : List Nat) (block_size : Nat) : List (Nat × Nat) :=
  (List.range ((sizes.sum + block_size - 1) / block_size)).map
    (block_at block_size sizes.sum)

/-- The while-loop of the 'complete' branch of __init__, with the loop
state (sz_idx, tok_idx, curr_size); the remaining suffix sizes[sz_idx:]
stands for sz_idx.  Each iteration either consumes the next size into
curr_size (when it fits, or when curr_size == 0) or emits the block
(tok_idx, tok_idx + curr_size) and resets curr_size to 0; after the loop
a pending nonempty block is emitted. -/
def completeGo (block_size : Nat) : List Nat → Nat → Nat → List (Nat × Nat)
  | [], tok_idx, curr_size =>
      if 0 < curr_size then [(tok_idx, tok_idx + curr_size)] else []
  | sz :: rest, tok_idx, curr_size =>
      if h : curr_size + sz ≤ block_size ∨ curr_size = 0 then
        completeGo block_size rest tok_idx (curr_size + sz)
      else
        (tok_idx, tok_idx + curr_size) ::
          completeGo block_size (sz :: rest) (tok_idx + curr_size) 0
termination_by l t c => 2 * l.length + (if c = 0 then 0 else 1)
decreasing_by
  · simp only [List.length_cons]
    split <;> split <;> omega
  · simp only [List.length_cons]
    have hc : curr_size ≠ 0 := fun hc0 => h (Or.inr hc0)
    split <;> simp_all <;> omega

/-- The 'complete' branch of __init__ starting from tok_idx = 0, curr_size = 0. -/
def blocksComplete (sizes : List Nat) (block_size : Nat) : List (Nat × Nat) :=
  completeGo block_size sizes 0 0

/-- The for-loop of the 'eos' branch of __init__: each size sz > 0 emits
the block (curr, curr + sz); curr advances by sz in every case. -/
def eosGo : List Nat → Nat → List (Nat × Nat)
  | [], _ => []
  | sz :: rest, curr =>
      if 0 < sz then (curr, curr + sz) :: eosGo rest (curr + sz)
      else eosGo rest (curr + sz)

/-- The 'eos' branch of __init__ starting from curr = 0. -/
def blocksEos (sizes : List Nat) : List (Nat × Nat) :=
  eosGo sizes 0

/-- slice_indices as computed by __init__ for each break mode. -/
def sliceIndices (sizes : List Nat) (block_size : Nat) : BreakMode → List (Nat × Nat)
  | BreakMode.none => blocksNone sizes block_size
  | BreakMode.complete => blocksComplete sizes block_size
  | BreakMode.eos => blocksEos sizes

/-- self.sizes = np.array([e - s for s, e in self.slice_indices]). -/
def sizesArray (blocks : List (Nat × Nat)) : List Nat :=
  blocks.map (fun p => p.2 - p.1)

example : blocksComplete [3, 3, 3] 4 = [(0, 3), (3, 6), (6, 9)] := by
  simp [blocksComplete, completeGo]

example : blocksComplete [5] 3 = [(0, 5)] := by
  simp [blocksComplete, completeGo]

example : blocksEos [0, 2, 0, 3] = [(0, 2), (2, 5)] := by decide

example : blocksNone [3, 3, 3] 4 = [(0, 4), (4, 8), (8, 9)] := by decide

/-- The fuel-indexed variant of the 'complete' while-loop: one unit of
fuel is consumed per executed loop iteration (the loop exits for free on
an empty remaining suffix), returning Option.none when the fuel runs out
before the loop exits.  Used to bound the iteration count of the loop. -/
def completeGoFuel (block_size : Nat) : Nat → List Nat → Nat → Nat → Option (List (Nat × Nat))
  | _, [], tok_idx, curr_size =>
      some (if 0 < curr_size then [(tok_idx, tok_idx + curr_size)] else [])
  | 0, _ :: _, _, _ => Option.none
  | fuel + 1, sz :: rest, tok_idx, curr_size =>
      if curr_size + sz ≤ block_size ∨ curr_size = 0 then
        completeGoFuel block_size fuel rest tok_idx (curr_size + sz)
      else
        (completeGoFuel block_size fuel (sz :: rest) (tok_idx + curr_size) 0).map
          (fun l => (tok_idx, tok_idx + curr_size) :: l)

/-- Modelled from the spec: the external TokenStream collaborator (the
`ds` argument of TokenBlockDataset, not part of this file's source) with
contents `stream`; read_into(start, destination of length L) copies
tokens [start, start + L) and fails loudly (here: Option.none, the
OutOfRange error) when the range exceeds the stream bounds. -/
def readInto (stream : List Int) (start len : Nat) : Option (List Int) :=
  if start + len ≤ stream.length then some ((stream.drop start).take len)
  else Option.none

/-- Overwrite cache[start : start + data.length] with data, the effect of
read_into writing through the numpy view cache[start : start + e - s]. -/
def writeSlice (cache : List Int) (start : Nat) (data : List Int) : List Int :=
  cache.take start ++ data ++ cache.drop (start + data.length)

/-- The mutable cache part of a TokenBlockDataset: self.cache (the numpy
buffer) and self.cache_index (a Python dict from block id to the local
offset range). -/
structure CacheState where
  cache : List Int
  cache_index : Nat → Option (Nat × Nat)

/-- The state of a TokenBlockDataset: the external stream (via the `ds`
argument), the immutable slice_indices/pad/eos set by __init__, and the
mutable cache state. -/
structure TBD where
  stream : List Int
  slice_indices : List (Nat × Nat)
  pad : Int
  eos : Int
  cache : List Int
  cache_index : Nat → Option (Nat × Nat)

/-- __init__: builds slice_indices from ds.sizes via the break mode and
starts with an empty cache_index (self.cache_index = {}); self.cache does
not exist yet, modelled as the empty buffer. -/
def TBD.init (stream : List Int) (ds_sizes : List Nat) (block_size : Nat)
    (pad eos : Int) (mode : BreakMode) : TBD :=
  { stream := stream
    slice_indices := sliceIndices ds_sizes block_size mode
    pad := pad
    eos := eos
    cache := []
    cache_index := fun _ => Option.none }

/-- The second loop of prefetch, over the already-sorted indices: for each
idx, s, e = slice_indices[idx]; ds.read_into(s, cache[start : start+e-s]);
cache_index[idx] = (start, start + e - s); start += e - s.  Returns
(True, final state) on success and (False, state reached so far) when a
read_into raises (the exception propagates; assignments already made
persist on the object). -/
def prefetchGo (stream : List Int) (si : List (Nat × Nat)) :
    List Nat → Nat → CacheState → Bool × CacheState
  | [], _, st => (true, st)
  | idx :: rest, start, st =>
      match si[idx]? with
      | Option.none => (false, st)
      | some (s, e) =>
          match readInto stream s (e - s) with
          | Option.none => (false, st)
          | some data =>
              prefetchGo stream si rest (start + (e - s))
                { cache := writeSlice st.cache start data
                  cache_index := fun j =>
                    if j = idx then some (start, start + (e - s)) else st.cache_index j }

/-- The length e - s of block idx of the table si (0 for an absent idx). -/
def lenOf (si : List (Nat × Nat)) (idx : Nat) : Nat :=
  (si.getD idx (0, 0)).2 - (si.getD idx (0, 0)).1

/-- The start s of block idx of the table si (0 for an absent idx). -/
def startOf (si : List (Nat × Nat)) (idx : Nat) : Nat :=
  (si.getD idx (0, 0)).1

/-- prefetch(indices): sort the indices ascending (Python list.sort; for
Nat keys insertion sort yields the same list), sum the block lengths
(raising IndexError, with no state change, at an out-of-range id), set
self.cache to a fresh uninitialised buffer of that total size (np.empty,
contents modelled as zeros), then run the read loop.  Note that
self.cache_index is NOT cleared: entries of earlier prefetch calls
persist.  Returns (ok, new state). -/
def TBD.prefetch (d : TBD) (indices : List Nat) : Bool × TBD :=
  let sorted := indices.insertionSort (· ≤ ·)
  if sorted.all (fun idx => idx < d.slice_indices.length) then
    let total := (sorted.map (lenOf d.slice_indices)).sum
    let r := prefetchGo d.stream d.slice_indices sorted 0
      { cache := List.replicate total 0, cache_index := d.cache_index }
    (r.1, { d with cache := r.2.cache, cache_index := r.2.cache_index })
  else (false, d)

/-- __getitem__ with include_targets = False: s, e = self.cache_index[index]
(Option.none models the KeyError, i.e. the NotPrefetched error); the item
is the buffer slice cache[s:e]. -/
def TBD.getitemTarget (d : TBD) (index : Nat) : Option (List Int) :=
  match d.cache_index index with
  | Option.none => Option.none
  | some (s, e) => some (pySlice d.cache s (e : Int))

/-- __getitem__ with include_targets = True, returning
(source, item, past_target):
if s == 0: source = [eos] ++ cache[0 : e-1],
past_target = [pad, eos] ++ cache[0 : e-2]; else source = cache[s-1 : e-1]
and past_target = [eos] ++ cache[0 : e-2] if s == 1 else cache[s-2 : e-2]. -/
def TBD.getitemFull (d : TBD) (index : Nat) : Option (List Int × List Int × List Int) :=
  match d.cache_index index with
  | Option.none => Option.none
  | some (s, e) =>
      let item := pySlice d.cache s (e : Int)
      if s = 0 then
        some (d.eos :: pySlice d.cache 0 ((e : Int) - 1), item,
              d.pad :: d.eos :: pySlice d.cache 0 ((e : Int) - 2))
      else
        let source := pySlice d.cache (s - 1) ((e : Int) - 1)
        let past_target :=
          if s = 1 then d.eos :: pySlice d.cache 0 ((e : Int) - 2)
          else pySlice d.cache (s - 2) ((e : Int) - 2)
        some (source, item, past_target)

example :
    (TBD.init [10, 20, 30, 40] [2, 2] 5 1 2 BreakMode.eos).slice_indices
      = [(0, 2), (2, 4)] := by decide

example :
    (((TBD.init [10, 20, 30, 40] [2, 2] 5 1 2 BreakMode.eos).prefetch [0]).2).cache
      = [10, 20] := by decide

example :
    ((((TBD.init [10, 20, 30, 40] [2, 2] 5 1 2 BreakMode.eos).prefetch [0]).2).prefetch
      [1]).2.getitemTarget 0 = some [30, 40] := by decide

/-- Global token position of the boundary before unit k: the sum of the
first k unit sizes. -/
def prefixLen (sizes : List Nat) (k : Nat) : Nat :=
  (sizes.take k).sum

lemma prefixLen_zero (sizes : List Nat) : prefixLen sizes 0 = 0 := rfl

lemma prefixLen_cons_succ (sz : Nat) (rest : List Nat) (k : Nat) :
    prefixLen (sz :: rest) (k + 1) = sz + prefixLen rest k := by
  simp [prefixLen, List.take_succ_cons]

lemma prefixLen_mono (sizes : List Nat) {j k : Nat} (h : j ≤ k) :
    prefixLen sizes j ≤ prefixLen sizes k := by
  unfold prefixLen
  have hk : k = j + (k - j) := by omega
  rw [hk, List.take_add, List.sum_append]
  omega

lemma prefixLen_le_sum (sizes : List Nat) (k : Nat) :
    prefixLen sizes k ≤ sizes.sum := by
  have h := prefixLen_mono sizes (Nat.le_refl sizes.length)
  unfold prefixLen
  calc (sizes.take k).sum ≤ ((sizes.take k) ++ (sizes.drop k)).sum := by
        rw [List.sum_append]; omega
    _ = sizes.sum := by rw [List.take_append_drop]

lemma prefixLen_succ (sizes : List Nat) (k : Nat) (h : k < sizes.length) :
    prefixLen sizes (k + 1) = prefixLen sizes k + sizes.getD k 0 := by
  unfold prefixLen
  rw [List.take_succ, List.sum_append]
  simp [List.getD_eq_getElem?_getD, List.getElem?_eq_getElem h]

/- ------------------------------------------------------------------ -/
/- The 'none' (Contiguous) policy                                      -/
/- ------------------------------------------------------------------ -/

lemma blocksNone_length (sizes : List Nat) (bs : Nat) :
    (blocksNone sizes bs).length = (sizes.sum + bs - 1) / bs := by
  simp [blocksNone]

lemma blocksNone_get (sizes : List Nat) (bs i : Nat)
    (h : i < (blocksNone sizes bs).length) :
    (blocksNone sizes bs).get ⟨i, h⟩ = (i * bs, min (i * bs + bs) sizes.sum) := by
  simp [blocksNone, block_at]

lemma blocksNone_getD (sizes : List Nat) (bs i : Nat)
    (h : i < (blocksNone sizes bs).length) :
    (blocksNone sizes bs).getD i (0, 0) = (i * bs, min (i * bs + bs) sizes.sum) := by
  rw [List.getD_eq_getElem _ _ h]
  have := blocksNone_get sizes bs i h
  simpa [List.get_eq_getElem] using this

lemma range_map_blockLen_sum (bs N : Nat) (L : Nat) :
    ((List.range L).map (fun i => (block_at bs N i).2 - (block_at bs N i).1)).sum
      = min (L * bs) N := by
  induction L with
  | zero => simp
  | succ L ih =>
      rw [List.range_succ, List.map_append, List.sum_append, ih]
      simp only [List.map_cons, List.map_nil, List.sum_cons, List.sum_nil, block_at]
      have hmul : (L + 1) * bs = L * bs + bs := by ring
      rw [hmul]
      generalize L * bs = x
      omega

lemma ceilDiv_mul_bounds (N bs : Nat) (hbs : 0 < bs) :
    N ≤ ((N + bs - 1) / bs) * bs ∧ ((N + bs - 1) / bs) * bs < N + bs := by
  have hd := Nat.div_add_mod (N + bs - 1) bs
  have hm : (N + bs - 1) % bs < bs := Nat.mod_lt _ hbs
  rw [Nat.mul_comm bs ((N + bs - 1) / bs)] at hd
  generalize hx : ((N + bs - 1) / bs) * bs = x at hd ⊢
  omega

/-- C6: for every sizes sequence summing to N and every positive
block_size, the 'none' (Contiguous) policy produces exactly
ceil(N / block_size) blocks (stated both as the closed formula and by the
characterising inequalities N ≤ count·bs < N + bs), block i is
[i·bs, min((i+1)·bs, N)), the block lengths sum to N, and every block
except possibly the last has length exactly block_size. -/
theorem c6_contiguous_policy (sizes : List Nat) (block_size : Nat)
    (hbs : 0 < block_size) :
    (blocksNone sizes block_size).length = (sizes.sum + block_size - 1) / block_size ∧
    sizes.sum ≤ (blocksNone sizes block_size).length * block_size ∧
    (blocksNone sizes block_size).length * block_size < sizes.sum + block_size ∧
    (∀ i, (h : i < (blocksNone sizes block_size).length) →
      (blocksNone sizes block_size).get ⟨i, h⟩
        = (i * block_size, min ((i + 1) * block_size) sizes.sum)) ∧
    (sizesArray (blocksNone sizes block_size)).sum = sizes.sum ∧
    (∀ i, i + 1 < (blocksNone sizes block_size).length →
      lenOf (blocksNone sizes block_size) i = block_size) := by
  have hlen := blocksNone_length sizes block_size
  have hbounds := ceilDiv_mul_bounds sizes.sum block_size hbs
  refine ⟨hlen, ?_, ?_, ?_, ?_, ?_⟩
  · rw [hlen]; exact hbounds.1
  · rw [hlen]; exact hbounds.2
  · intro i h
    rw [blocksNone_get sizes block_size i h]
    have : (i + 1) * block_size = i * block_size + block_size := by ring
    rw [this]
  · unfold sizesArray blocksNone
    rw [List.map_map]
    have := range_map_blockLen_sum block_size sizes.sum
      ((sizes.sum + block_size - 1) / block_size)
    have hge : sizes.sum ≤ ((sizes.sum + block_size - 1) / block_size) * block_size :=
      (ceilDiv_mul_bounds sizes.sum block_size hbs).1
    calc ((List.range ((sizes.sum + block_size - 1) / block_size)).map
            ((fun p => p.2 - p.1) ∘ block_at block_size sizes.sum)).sum
        = min (((sizes.sum + block_size - 1) / block_size) * block_size) sizes.sum := by
          rw [← this]; rfl
      _ = sizes.sum := by omega
  · intro i hi
    unfold lenOf
    have hilen : i < (blocksNone sizes block_size).length := by omega
    rw [blocksNone_getD sizes block_size i hilen]
    have hfit : i * block_size + block_size ≤ sizes.sum := by
      rw [hlen] at hi
      have h2 : i + 2 ≤ (sizes.sum + block_size - 1) / block_size := by omega
      have h3 : (i + 2) * block_size ≤ sizes.sum + block_size - 1 :=
        (Nat.le_div_iff_mul_le hbs).1 h2
      have hmul : (i + 2) * block_size = i * block_size + block_size + block_size := by
        ring
      rw [hmul] at h3
      generalize i * block_size = x at h3 ⊢
      omega
    simp only []
    omega

/-- C6 witness at sizes = [3, 3, 3], block_size = 4. -/
theorem c6_contiguous_policy_witness :
    (blocksNone [3, 3, 3] 4).length = 3 ∧
    (sizesArray (blocksNone [3, 3, 3] 4)).sum = 9 ∧
    lenOf (blocksNone [3, 3, 3] 4) 0 = 4 := by
  have h := c6_contiguous_policy [3, 3, 3] 4 (by decide)
  refine ⟨?_, h.2.2.2.2.1, h.2.2.2.2.2 0 (by decide)⟩
  rw [h.1]; decide

/- ------------------------------------------------------------------ -/
/- The 'eos' (UnitPerBlock) policy                                     -/
/- ------------------------------------------------------------------ -/

lemma eosGo_length (sizes : List Nat) :
    ∀ c, (eosGo sizes c).length = sizes.countP (fun sz => decide (0 < sz)) := by
  induction sizes with
  | nil => intro c; simp [eosGo]
  | cons sz rest ih =>
      intro c
      by_cases h : 0 < sz
      · simp [eosGo, h, ih, List.countP_cons]
      · simp [eosGo, h, ih, List.countP_cons]

lemma eosGo_mem (sizes : List Nat) :
    ∀ c u, u < sizes.length → 0 < sizes.getD u 0 →
      (c + prefixLen sizes u, c + prefixLen sizes u + sizes.getD u 0) ∈ eosGo sizes c := by
  induction sizes with
  | nil => intro c u hu; simp at hu
  | cons sz rest ih =>
      intro c u hu hpos
      cases u with
      | zero =>
          simp only [List.getD_cons_zero] at hpos
          simp [eosGo, hpos, prefixLen_zero]
      | succ u =>
          have hu2 : u < rest.length := by simpa using hu
          have hpos2 : 0 < rest.getD u 0 := by simpa using hpos
          have hmem := ih (c + sz) u hu2 hpos2
          rw [prefixLen_cons_succ]
          have harith : c + (sz + prefixLen rest u) = c + sz + prefixLen rest u := by omega
          rw [harith]
          simp only [List.getD_cons_succ]
          by_cases h : 0 < sz
          · simp only [eosGo, if_pos h]
            exact List.mem_cons_of_mem _ hmem
          · simpa only [eosGo, if_neg h] using hmem

/-- C8 counterexample: for sizes = [0, 2, 0, 3], the 'eos' (UnitPerBlock)
policy produces [(0, 2), (2, 5)], not the [(2, 4), (4, 7)] stated by the
claim. -/
theorem c8_counterexample :
    blocksEos [0, 2, 0, 3] = [(0, 2), (2, 5)] ∧
    blocksEos [0, 2, 0, 3] ≠ [(2, 4), (4, 7)] := by decide

/-- C8 (amended): for every sizes sequence, the 'eos' (UnitPerBlock)
policy produces a number of blocks equal to the number of non-zero-size
units, and each non-zero unit u of size sz at running cursor position
prefixLen sizes u (a cursor unaffected by zero-size units, which yield no
block) yields the block [prefixLen u, prefixLen u + sz); in particular
sizes = [0, 2, 0, 3] yields blocks [(0, 2), (2, 5)]. -/
theorem c8_unit_per_block (sizes : List Nat) :
    (blocksEos sizes).length = sizes.countP (fun sz => decide (0 < sz)) ∧
    (∀ u, u < sizes.length → 0 < sizes.getD u 0 →
      (prefixLen sizes u, prefixLen sizes u + sizes.getD u 0) ∈ blocksEos sizes) ∧
    blocksEos [0, 2, 0, 3] = [(0, 2), (2, 5)] := by
  refine ⟨eosGo_length sizes 0, ?_, by decide⟩
  intro u hu hpos
  have := eosGo_mem sizes 0 u hu hpos
  simpa [blocksEos] using this

/-- C8 witness at sizes = [0, 2, 0, 3], u = 3. -/
theorem c8_unit_per_block_witness :
    (blocksEos [0, 2, 0, 3]).length = 2 ∧
    (prefixLen [0, 2, 0, 3] 3, prefixLen [0, 2, 0, 3] 3 + [0, 2, 0, 3].getD 3 0)
      ∈ blocksEos [0, 2, 0, 3] := by
  have h := c8_unit_per_block [0, 2, 0, 3]
  exact ⟨by rw [h.1]; decide, h.2.1 3 (by decide) (by decide)⟩

/- ------------------------------------------------------------------ -/
/- Termination of the 'complete' loop (fuel bound)                     -/
/- ------------------------------------------------------------------ -/

lemma completeGoFuel_sufficient (block_size : Nat) :
    ∀ fuel sizes tok curr,
      2 * sizes.length + (if curr = 0 then 0 else 1) ≤ fuel →
      completeGoFuel block_size fuel sizes tok curr
        = some (completeGo block_size sizes tok curr) := by
  intro fuel
  induction fuel with
  | zero =>
      intro sizes tok curr hf
      cases sizes with
      | nil => simp [completeGoFuel, completeGo]
      | cons sz rest => simp at hf
  | succ fuel ih =>
      intro sizes tok curr hf
      cases sizes with
      | nil => simp [completeGoFuel, completeGo]
      | cons sz rest =>
          simp only [List.length_cons] at hf
          by_cases h : curr + sz ≤ block_size ∨ curr = 0
          · rw [completeGoFuel, if_pos h, completeGo, dif_pos h]
            apply ih
            have hf2 : 2 * rest.length + 2 ≤ fuel + 1 := by omega
            split <;> omega
          · have hcurr : curr ≠ 0 := fun h0 => h (Or.inr h0)
            rw [if_neg hcurr] at hf
            rw [completeGoFuel, if_neg h, completeGo, dif_neg h]
            rw [ih (sz :: rest) (tok + curr) 0 (by simp; omega)]
            rfl

/-- The sorted id list used by prefetch (Python list.sort: ascending;
for Nat keys insertion sort produces the same list). -/
def sortedIds (indices : List Nat) : List Nat :=
  indices.insertionSort (· ≤ ·)

/-- total_size as computed by the first loop of prefetch. -/
def prefetchTotal (d : TBD) (indices : List Nat) : Nat :=
  ((sortedIds indices).map (lenOf d.slice_indices)).sum

/-- The read loop of prefetch, run on the freshly allocated buffer. -/
def prefetchRun (d : TBD) (indices : List Nat) : Bool × CacheState :=
  prefetchGo d.stream d.slice_indices (sortedIds indices) 0
    { cache := List.replicate (prefetchTotal d indices) 0
      cache_index := d.cache_index }

/- ------------------------------------------------------------------ -/
/- Chain / ordering structure of block tables                          -/
/- ------------------------------------------------------------------ -/

/-- The blocks form a gapless consecutive chain of nonempty half-open
ranges from t to t2: each block starts where the previous one ended. -/
def chain : Nat → List (Nat × Nat) → Nat → Prop
  | t, [], t2 => t = t2
  | t, (s, e) :: rest, t2 => s = t ∧ s < e ∧ chain e rest t2

/-- The blocks are nonempty, pairwise disjoint and in increasing
position order, all at positions ≥ t (gaps allowed). -/
def ordered : Nat → List (Nat × Nat) → Prop
  | _, [] => True
  | t, (s, e) :: rest => t ≤ s ∧ s < e ∧ ordered e rest

lemma chain_ordered : ∀ (l : List (Nat × Nat)) (t t2 : Nat), chain t l t2 → ordered t l := by
  intro l
  induction l with
  | nil => intro t t2 _; trivial
  | cons p rest ih =>
      intro t t2 hc
      obtain ⟨s, e⟩ := p
      obtain ⟨h1, h2, h3⟩ := hc
      exact ⟨Nat.le_of_eq h1.symm, h2, ih e t2 h3⟩

lemma chain_bounds : ∀ (l : List (Nat × Nat)) (t t2 : Nat), chain t l t2 →
    t ≤ t2 ∧ ∀ p ∈ l, t ≤ p.1 ∧ p.1 < p.2 ∧ p.2 ≤ t2 := by
  intro l
  induction l with
  | nil =>
      intro t t2 hc
      exact ⟨Nat.le_of_eq hc, by simp⟩
  | cons q rest ih =>
      intro t t2 hc
      obtain ⟨s, e⟩ := q
      obtain ⟨h1, h2, h3⟩ := hc
      obtain ⟨hle, hall⟩ := ih e t2 h3
      constructor
      · omega
      · intro p hp
        rcases List.mem_cons.mp hp with hph | hpt
        · rw [hph]; simp only []; omega
        · have := hall p hpt
          omega

lemma chain_sizes_sum : ∀ (l : List (Nat × Nat)) (t t2 : Nat), chain t l t2 →
    (sizesArray l).sum = t2 - t := by
  intro l
  induction l with
  | nil => intro t t2 hc; rw [hc]; simp [sizesArray]
  | cons q rest ih =>
      intro t t2 hc
      obtain ⟨s, e⟩ := q
      obtain ⟨h1, h2, h3⟩ := hc
      have hsum := ih e t2 h3
      have hb := chain_bounds rest e t2 h3
      simp only [sizesArray, List.map_cons, List.sum_cons] at hsum ⊢
      omega

lemma ordered_pairs : ∀ (l : List (Nat × Nat)) (t : Nat), ordered t l →
    ∀ i, i + 1 < l.length →
      (l.getD i (0, 0)).2 ≤ (l.getD (i + 1) (0, 0)).1 ∧
      (l.getD i (0, 0)).1 < (l.getD (i + 1) (0, 0)).1 := by
  intro l
  induction l with
  | nil => intro t _ i hi; simp at hi
  | cons q rest ih =>
      intro t ho i hi
      obtain ⟨s, e⟩ := q
      obtain ⟨h1, h2, h3⟩ := ho
      cases i with
      | zero =>
          simp only [List.length_cons, Nat.zero_add] at hi
          simp only [List.getD_cons_zero, List.getD_cons_succ]
          cases rest with
          | nil => simp at hi
          | cons q2 rest2 =>
              obtain ⟨s2, e2⟩ := q2
              obtain ⟨h4, h5, _⟩ := h3
              simp only [List.getD_cons_zero]
              omega
      | succ i =>
          simp only [List.length_cons] at hi
          simp only [List.getD_cons_succ]
          exact ih e h3 i (by omega)

lemma chain_pos_unique : ∀ (l : List (Nat × Nat)) (t t2 : Nat), chain t l t2 →
    ∀ x, t ≤ x → x < t2 →
      ∃! j, j < l.length ∧ (l.getD j (0, 0)).1 ≤ x ∧ x < (l.getD j (0, 0)).2 := by
  intro l
  induction l with
  | nil =>
      intro t t2 hc x hx1 hx2
      rw [hc] at hx1
      omega
  | cons q rest ih =>
      intro t t2 hc x hx1 hx2
      obtain ⟨s, e⟩ := q
      obtain ⟨h1, h2, h3⟩ := hc
      by_cases hx : x < e
      · refine ⟨0, ⟨by simp, by simp; omega, by simpa using hx⟩, ?_⟩
        intro y hy
        cases y with
        | zero => rfl
        | succ y =>
            exfalso
            obtain ⟨hylen, hy1, hy2⟩ := hy
            simp only [List.getD_cons_succ] at hy1 hy2
            have hylen2 : y < rest.length := by simpa using hylen
            have hmem : rest.getD y (0, 0) ∈ rest := by
              rw [List.getD_eq_getElem rest (0, 0) hylen2]
              exact List.getElem_mem hylen2
            have := (chain_bounds rest e t2 h3).2 _ hmem
            omega
      · have hxe : e ≤ x := by omega
        obtain ⟨j, hj, hjuniq⟩ := ih e t2 h3 x hxe hx2
        refine ⟨j + 1, ?_, ?_⟩
        · obtain ⟨hjl, hj1, hj2⟩ := hj
          exact ⟨by simpa using Nat.succ_lt_succ hjl, by simpa using hj1, by simpa using hj2⟩
        · intro y hy
          cases y with
          | zero =>
              exfalso
              obtain ⟨_, hy1, hy2⟩ := hy
              simp only [List.getD_cons_zero] at hy1 hy2
              omega
          | succ y =>
              obtain ⟨hylen, hy1, hy2⟩ := hy
              simp only [List.getD_cons_succ] at hy1 hy2
              have : y = j := hjuniq y ⟨by simpa using hylen, hy1, hy2⟩
              omega

/- ------------------------------------------------------------------ -/
/- The 'complete' (CompleteUnits) policy                               -/
/- ------------------------------------------------------------------ -/

/-- One unfolding of the 'complete' loop that merges the emit iteration
with the (forced) consume iteration that follows it. -/
lemma completeGo_step (bs sz : Nat) (rest : List Nat) (tok curr : Nat) :
    completeGo bs (sz :: rest) tok curr =
      if curr + sz ≤ bs ∨ curr = 0 then completeGo bs rest tok (curr + sz)
      else (tok, tok + curr) :: completeGo bs rest (tok + curr) sz := by
  by_cases h : curr + sz ≤ bs ∨ curr = 0
  · rw [completeGo, dif_pos h, if_pos h]
  · rw [completeGo, dif_neg h, if_neg h]
    rw [completeGo, dif_pos (Or.inr rfl)]
    simp

lemma completeGo_chain (bs : Nat) :
    ∀ (sizes : List Nat) (tok curr : Nat),
      chain tok (completeGo bs sizes tok curr) (tok + curr + sizes.sum) := by
  intro sizes
  induction sizes with
  | nil =>
      intro tok curr
      by_cases h : 0 < curr
      · rw [completeGo, if_pos h]
        simpa [chain] using h
      · rw [completeGo, if_neg h]
        simp only [chain, List.sum_nil]
        omega
  | cons sz rest ih =>
      intro tok curr
      by_cases h : curr + sz ≤ bs ∨ curr = 0
      · rw [completeGo_step, if_pos h]
        have := ih tok (curr + sz)
        have harith : tok + curr + (sz :: rest).sum = tok + (curr + sz) + rest.sum := by
          simp [List.sum_cons]; omega
        rw [harith]
        exact this
      · rw [completeGo_step, if_neg h]
        have hcurr : curr ≠ 0 := fun h0 => h (Or.inr h0)
        refine ⟨rfl, by omega, ?_⟩
        have := ih (tok + curr) sz
        have harith : tok + curr + (sz :: rest).sum = tok + curr + sz + rest.sum := by
          simp [List.sum_cons]; omega
        rw [harith]
        exact this

lemma completeGo_ends (bs : Nat) :
    ∀ (sizes : List Nat) (tok curr : Nat) (p : Nat × Nat),
      p ∈ completeGo bs sizes tok curr →
      ∃ k, k ≤ sizes.length ∧ p.2 = tok + curr + prefixLen sizes k := by
  intro sizes
  induction sizes with
  | nil =>
      intro tok curr p hp
      by_cases h : 0 < curr
      · rw [completeGo, if_pos h] at hp
        rcases List.mem_singleton.mp hp with rfl
        exact ⟨0, by simp, by simp [prefixLen]⟩
      · rw [completeGo, if_neg h] at hp
        simp at hp
  | cons sz rest ih =>
      intro tok curr p hp
      by_cases h : curr + sz ≤ bs ∨ curr = 0
      · rw [completeGo_step, if_pos h] at hp
        obtain ⟨k, hk, he⟩ := ih tok (curr + sz) p hp
        refine ⟨k + 1, by simpa using Nat.succ_le_succ hk, ?_⟩
        rw [prefixLen_cons_succ]
        omega
      · rw [completeGo_step, if_neg h] at hp
        rcases List.mem_cons.mp hp with hph | hpt
        · exact ⟨0, by simp, by rw [hph]; simp [prefixLen]⟩
        · obtain ⟨k, hk, he⟩ := ih (tok + curr) sz p hpt
          refine ⟨k + 1, by simpa using Nat.succ_le_succ hk, ?_⟩
          rw [prefixLen_cons_succ]
          omega

/-- A pending accumulator that already exceeds block_size is emitted as a
block by itself before anything else happens. -/
lemma completeGo_oversize_head (bs : Nat) (rest : List Nat) (tok sz : Nat) (h : bs < sz) :
    completeGo bs rest tok sz = (tok, tok + sz) :: completeGo bs rest (tok + sz) 0 := by
  cases rest with
  | nil =>
      rw [completeGo, if_pos (by omega)]
      rw [completeGo, if_neg (by omega)]
  | cons sz2 rest2 =>
      rw [completeGo_step, if_neg (by omega)]
      rw [completeGo_step, if_pos (Or.inr rfl)]
      simp

lemma completeGo_oversize (bs : Nat) :
    ∀ (sizes : List Nat) (tok curr : Nat), curr ≤ bs →
      ∀ p ∈ completeGo bs sizes tok curr, bs < p.2 - p.1 →
      ∃ k, k < sizes.length ∧ p.1 = tok + curr + prefixLen sizes k ∧
        p.2 = tok + curr + prefixLen sizes (k + 1) := by
  intro sizes
  induction sizes with
  | nil =>
      intro tok curr hc p hp hover
      by_cases h : 0 < curr
      · rw [completeGo, if_pos h] at hp
        rcases List.mem_singleton.mp hp with rfl
        simp at hover
        omega
      · rw [completeGo, if_neg h] at hp
        simp at hp
  | cons sz rest ih =>
      intro tok curr hc p hp hover
      by_cases h : curr + sz ≤ bs ∨ curr = 0
      · rw [completeGo_step, if_pos h] at hp
        by_cases hfit : curr + sz ≤ bs
        · obtain ⟨k, hk, h1, h2⟩ := ih tok (curr + sz) hfit p hp hover
          refine ⟨k + 1, by simpa using Nat.succ_lt_succ hk, ?_, ?_⟩
          · rw [prefixLen_cons_succ]; omega
          · rw [prefixLen_cons_succ]; omega
        · have hcurr0 : curr = 0 := h.resolve_left hfit
          subst hcurr0
          have hsz : bs < sz := by omega
          rw [Nat.zero_add, completeGo_oversize_head bs rest tok sz hsz] at hp
          rcases List.mem_cons.mp hp with hph | hpt
          · refine ⟨0, by simp, ?_, ?_⟩
            · rw [hph]; simp [prefixLen]
            · rw [hph, prefixLen_cons_succ]; simp [prefixLen]
          · obtain ⟨k, hk, h1, h2⟩ := ih (tok + sz) 0 (Nat.zero_le bs) p hpt hover
            refine ⟨k + 1, by simpa using Nat.succ_lt_succ hk, ?_, ?_⟩
            · rw [prefixLen_cons_succ]; omega
            · rw [prefixLen_cons_succ]; omega
      · rw [completeGo_step, if_neg h] at hp
        have hcurr : curr ≠ 0 := fun h0 => h (Or.inr h0)
        rcases List.mem_cons.mp hp with hph | hpt
        · exfalso
          rw [hph] at hover
          simp at hover
          omega
        · by_cases hsz : sz ≤ bs
          · obtain ⟨k, hk, h1, h2⟩ := ih (tok + curr) sz hsz p hpt hover
            refine ⟨k + 1, by simpa using Nat.succ_lt_succ hk, ?_, ?_⟩
            · rw [prefixLen_cons_succ]; omega
            · rw [prefixLen_cons_succ]; omega
          · have hsz2 : bs < sz := by omega
            rw [completeGo_oversize_head bs rest (tok + curr) sz hsz2] at hpt
            rcases List.mem_cons.mp hpt with hph2 | hpt2
            · refine ⟨0, by simp, ?_, ?_⟩
              · rw [hph2]; simp [prefixLen]
              · rw [hph2, prefixLen_cons_succ]; simp [prefixLen]
            · obtain ⟨k, hk, h1, h2⟩ := ih (tok + curr + sz) 0 (Nat.zero_le bs) p hpt2 hover
              refine ⟨k + 1, by simpa using Nat.succ_lt_succ hk, ?_, ?_⟩
              · rw [prefixLen_cons_succ]; omega
              · rw [prefixLen_cons_succ]; omega

lemma blocksComplete_chain (sizes : List Nat) (bs : Nat) :
    chain 0 (blocksComplete sizes bs) sizes.sum := by
  have := completeGo_chain bs sizes 0 0
  simpa [blocksComplete] using this

/-- C7: the 'complete' (CompleteUnits) policy covers the whole token
range (the block lengths sum to N, so any non-empty remainder is emitted),
assigns every non-zero unit to exactly one block without splitting it
(the unit's token range [P u, P u + sizes[u]) lies inside exactly one
block), produces an oversized block only as a single oversized unit
(an oversized block's boundaries are the unit boundaries P k, P (k+1)),
and on the two boundary examples produces [(0,3),(3,6),(6,9)] and [(0,5)]. -/
theorem c7_complete_units (sizes : List Nat) (block_size : Nat) (hbs : 0 < block_size) :
    (sizesArray (blocksComplete sizes block_size)).sum = sizes.sum ∧
    (∀ u, u < sizes.length → 0 < sizes.getD u 0 →
      ∃! j, j < (blocksComplete sizes block_size).length ∧
        ((blocksComplete sizes block_size).getD j (0, 0)).1 ≤ prefixLen sizes u ∧
        prefixLen sizes u + sizes.getD u 0
          ≤ ((blocksComplete sizes block_size).getD j (0, 0)).2) ∧
    (∀ p ∈ blocksComplete sizes block_size, block_size < p.2 - p.1 →
      ∃ k, k < sizes.length ∧ p.1 = prefixLen sizes k ∧ p.2 = prefixLen sizes (k + 1)) ∧
    blocksComplete [3, 3, 3] 4 = [(0, 3), (3, 6), (6, 9)] ∧
    blocksComplete [5] 3 = [(0, 5)] := by
  have hchain := blocksComplete_chain sizes block_size
  refine ⟨?_, ?_, ?_, by simp [blocksComplete, completeGo], by simp [blocksComplete, completeGo]⟩
  · have := chain_sizes_sum _ 0 sizes.sum hchain
    simpa using this
  · intro u hu hpos
    have hsucc : prefixLen sizes (u + 1) = prefixLen sizes u + sizes.getD u 0 :=
      prefixLen_succ sizes u hu
    have hxlt : prefixLen sizes u < sizes.sum := by
      have h1 : prefixLen sizes (u + 1) ≤ sizes.sum := prefixLen_le_sum sizes (u + 1)
      omega
    obtain ⟨j, ⟨hjl, hj1, hj2⟩, hjuniq⟩ :=
      chain_pos_unique _ 0 sizes.sum hchain (prefixLen sizes u) (Nat.zero_le _) hxlt
    have hmem : (blocksComplete sizes block_size).getD j (0, 0)
        ∈ completeGo block_size sizes 0 0 := by
      rw [List.getD_eq_getElem _ _ hjl]
      simpa [blocksComplete] using List.getElem_mem hjl
    obtain ⟨k, hk, hke⟩ := completeGo_ends block_size sizes 0 0 _ hmem
    have hke2 : ((blocksComplete sizes block_size).getD j (0, 0)).2 = prefixLen sizes k := by
      simpa using hke
    have hku : u < k := by
      by_contra hle
      push_neg at hle
      have := prefixLen_mono sizes hle
      omega
    have hend : prefixLen sizes (u + 1)
        ≤ ((blocksComplete sizes block_size).getD j (0, 0)).2 := by
      have := prefixLen_mono sizes (show u + 1 ≤ k by omega)
      omega
    refine ⟨j, ⟨hjl, hj1, by omega⟩, ?_⟩
    intro y hy
    obtain ⟨hyl, hy1, hy2⟩ := hy
    exact hjuniq y ⟨hyl, hy1, by omega⟩
  · intro p hp hover
    have hp2 : p ∈ completeGo block_size sizes 0 0 := by simpa [blocksComplete] using hp
    obtain ⟨k, hk, h1, h2⟩ :=
      completeGo_oversize block_size sizes 0 0 (Nat.zero_le _) p hp2 hover
    exact ⟨k, hk, by simpa using h1, by simpa using h2⟩

/-- C7 witness: sizes = [3, 3, 3] with block_size = 4 (unit u = 0), and
the oversized single-unit example [5] with block_size = 3. -/
theorem c7_complete_units_witness :
    (sizesArray (blocksComplete [3, 3, 3] 4)).sum = 9 ∧
    (∃! j, j < (blocksComplete [3, 3, 3] 4).length ∧
      ((blocksComplete [3, 3, 3] 4).getD j (0, 0)).1 ≤ prefixLen [3, 3, 3] 0 ∧
      prefixLen [3, 3, 3] 0 + [3, 3, 3].getD 0 0
        ≤ ((blocksComplete [3, 3, 3] 4).getD j (0, 0)).2) ∧
    blocksComplete [5] 3 = [(0, 5)] := by
  have h := c7_complete_units [3, 3, 3] 4 (by decide)
  exact ⟨h.1.trans (by decide), h.2.1 0 (by decide) (by decide),
    (c7_complete_units [5] 3 (by decide)).2.2.2.2⟩

lemma eosGo_ordered : ∀ (sizes : List Nat) (c : Nat), ordered c (eosGo sizes c) := by
  intro sizes
  induction sizes with
  | nil => intro c; trivial
  | cons sz rest ih =>
      intro c
      by_cases h : 0 < sz
      · simp only [eosGo, if_pos h]
        exact ⟨Nat.le_refl c, by omega, ih (c + sz)⟩
      · have hsz : sz = 0 := by omega
        subst hsz
        simp only [eosGo, if_neg h, Nat.add_zero]
        exact ih c

lemma blocksNone_pairs (sizes : List Nat) (bs : Nat) (hbs : 0 < bs) :
    ∀ i, i + 1 < (blocksNone sizes bs).length →
      ((blocksNone sizes bs).getD i (0, 0)).2 ≤ ((blocksNone sizes bs).getD (i + 1) (0, 0)).1 ∧
      ((blocksNone sizes bs).getD i (0, 0)).1 < ((blocksNone sizes bs).getD (i + 1) (0, 0)).1 := by
  intro i hi
  rw [blocksNone_getD sizes bs i (by omega), blocksNone_getD sizes bs (i + 1) hi]
  simp only []
  have hmul : (i + 1) * bs = i * bs + bs := by ring
  rw [hmul]
  generalize i * bs = x
  omega

/-- C9: for every sizes sequence, positive block_size and each of the
three policies, consecutive blocks i and i+1 of the constructed table
satisfy end(i) ≤ start(i+1) and start(i) < start(i+1) (strict order by
start, pairwise non-overlapping), and the exposed per-block length array
(self.sizes) holds end - start for every block. -/
theorem c9_block_table_invariant (sizes : List Nat) (block_size : Nat)
    (mode : BreakMode) (hbs : 0 < block_size) :
    (∀ i, i + 1 < (sliceIndices sizes block_size mode).length →
      ((sliceIndices sizes block_size mode).getD i (0, 0)).2
        ≤ ((sliceIndices sizes block_size mode).getD (i + 1) (0, 0)).1 ∧
      ((sliceIndices sizes block_size mode).getD i (0, 0)).1
        < ((sliceIndices sizes block_size mode).getD (i + 1) (0, 0)).1) ∧
    (∀ i, i < (sliceIndices sizes block_size mode).length →
      (sizesArray (sliceIndices sizes block_size mode)).getD i 0
        = ((sliceIndices sizes block_size mode).getD i (0, 0)).2
          - ((sliceIndices sizes block_size mode).getD i (0, 0)).1) := by
  constructor
  · cases mode with
    | none =>
        simp only [sliceIndices]
        exact blocksNone_pairs sizes block_size hbs
    | complete =>
        simp only [sliceIndices]
        intro i hi
        exact ordered_pairs _ 0
          (chain_ordered _ 0 sizes.sum (blocksComplete_chain sizes block_size)) i hi
    | eos =>
        simp only [sliceIndices]
        intro i hi
        exact ordered_pairs _ 0 (eosGo_ordered sizes 0) i hi
  · intro i hi
    unfold sizesArray
    rw [List.getD_eq_getElem _ _ (by simpa using hi), List.getElem_map,
      List.getD_eq_getElem _ _ hi]

/-- C9 witness at sizes = [0, 2, 0, 3], block_size = 4, 'eos' mode, i = 0. -/
theorem c9_block_table_invariant_witness :
    (((sliceIndices [0, 2, 0, 3] 4 BreakMode.eos).getD 0 (0, 0)).2
      ≤ ((sliceIndices [0, 2, 0, 3] 4 BreakMode.eos).getD 1 (0, 0)).1 ∧
     ((sliceIndices [0, 2, 0, 3] 4 BreakMode.eos).getD 0 (0, 0)).1
      < ((sliceIndices [0, 2, 0, 3] 4 BreakMode.eos).getD 1 (0, 0)).1) ∧
    (sizesArray (sliceIndices [0, 2, 0, 3] 4 BreakMode.eos)).getD 0 0
      = ((sliceIndices [0, 2, 0, 3] 4 BreakMode.eos).getD 0 (0, 0)).2
        - ((sliceIndices [0, 2, 0, 3] 4 BreakMode.eos).getD 0 (0, 0)).1 := by
  have h := c9_block_table_invariant [0, 2, 0, 3] 4 BreakMode.eos (by decide)
  exact ⟨h.1 0 (by decide), h.2 0 (by decide)⟩

/-- C10: the 'complete' accumulation loop terminates within at most twice
as many iterations as there are units: running the fuel-indexed loop with
fuel 2·|sizes| never exhausts the fuel and computes the same block table
as the (terminating) loop itself. -/
theorem c10_complete_loop_terminates (block_size : Nat) (sizes : List Nat) :
    completeGoFuel block_size (2 * sizes.length) sizes 0 0
      = some (completeGo block_size sizes 0 0) := by
  apply completeGoFuel_sufficient
  simp

/- ------------------------------------------------------------------ -/
/- Properties of the prefetch cache                                    -/
/- ------------------------------------------------------------------ -/

lemma writeSlice_length (c : List Int) (start : Nat) (data : List Int)
    (h : start + data.length ≤ c.length) :
    (writeSlice c start data).length = c.length := by
  unfold writeSlice
  simp only [List.length_append, List.length_take, List.length_drop]
  omega

lemma writeSlice_take (c : List Int) (start : Nat) (data : List Int)
    (h : start ≤ c.length) :
    (writeSlice c start data).take start = c.take start := by
  unfold writeSlice
  rw [List.append_assoc]
  have hA : (c.take start).length = start := by
    rw [List.length_take]; omega
  calc (c.take start ++ (data ++ c.drop (start + data.length))).take start
      = (c.take start ++ (data ++ c.drop (start + data.length))).take (c.take start).length := by
        rw [hA]
    _ = c.take start := List.take_left _ _

lemma writeSlice_read (c : List Int) (start : Nat) (data : List Int)
    (h : start ≤ c.length) :
    ((writeSlice c start data).drop start).take data.length = data := by
  unfold writeSlice
  rw [List.append_assoc]
  have hA : (c.take start).length = start := by
    rw [List.length_take]; omega
  calc ((c.take start ++ (data ++ c.drop (start + data.length))).drop start).take data.length
      = ((c.take start ++ (data ++ c.drop (start + data.length))).drop
          (c.take start).length).take data.length := by rw [hA]
    _ = (data ++ c.drop (start + data.length)).take data.length := by rw [List.drop_left]
    _ = data := List.take_left _ _

lemma readInto_spec (stream : List Int) (s len : Nat) (data : List Int)
    (h : readInto stream s len = some data) :
    s + len ≤ stream.length ∧ data = (stream.drop s).take len ∧ data.length = len := by
  unfold readInto at h
  by_cases hb : s + len ≤ stream.length
  · rw [if_pos hb] at h
    refine ⟨hb, (Option.some.injEq _ _ ▸ h).symm, ?_⟩
    have : data = (stream.drop s).take len := (Option.some.injEq _ _ ▸ h).symm
    rw [this, List.length_take, List.length_drop]
    omega
  · rw [if_neg hb] at h
    simp at h

lemma lenOf_of_getElem (si : List (Nat × Nat)) (idx s e : Nat)
    (h : si[idx]? = some (s, e)) : lenOf si idx = e - s ∧ startOf si idx = s := by
  unfold lenOf startOf
  rw [List.getD_eq_getElem?_getD, h]
  exact ⟨rfl, rfl⟩

/-- Ids not given to the prefetch loop keep their previous cache_index
entry, whether or not the loop succeeds. -/
lemma prefetchGo_pres (stream : List Int) (si : List (Nat × Nat)) :
    ∀ (l : List Nat) (start : Nat) (st : CacheState) (j : Nat), j ∉ l →
      ((prefetchGo stream si l start st).2).cache_index j = st.cache_index j := by
  intro l
  induction l with
  | nil => intro start st j _; rfl
  | cons idx rest ih =>
      intro start st j hj
      have hjidx : j ≠ idx := fun h => hj (h ▸ List.mem_cons_self idx rest)
      have hjrest : j ∉ rest := fun h => hj (List.mem_cons_of_mem idx h)
      cases hsi : si[idx]? with
      | none => simp [prefetchGo, hsi]
      | some se =>
          obtain ⟨s, e⟩ := se
          cases hr : readInto stream s (e - s) with
          | none => simp [prefetchGo, hsi, hr]
          | some data =>
              simp only [prefetchGo, hsi, hr]
              rw [ih _ _ j hjrest]
              simp [hjidx]

/-- The prefetch loop never changes the length of the buffer it writes
into (all writes stay in bounds), whether or not it succeeds. -/
lemma prefetchGo_cache_length (stream : List Int) (si : List (Nat × Nat)) :
    ∀ (l : List Nat) (start : Nat) (st : CacheState),
      start + (l.map (lenOf si)).sum ≤ st.cache.length →
      ((prefetchGo stream si l start st).2).cache.length = st.cache.length := by
  intro l
  induction l with
  | nil => intro start st _; rfl
  | cons idx rest ih =>
      intro start st hbound
      simp only [List.map_cons, List.sum_cons] at hbound
      cases hsi : si[idx]? with
      | none => simp [prefetchGo, hsi]
      | some se =>
          obtain ⟨s, e⟩ := se
          cases hr : readInto stream s (e - s) with
          | none => simp [prefetchGo, hsi, hr]
          | some data =>
              simp only [prefetchGo, hsi, hr]
              have hlen := lenOf_of_getElem si idx s e hsi
              obtain ⟨_, _, hdlen⟩ := readInto_spec stream s (e - s) data hr
              have hwl : (writeSlice st.cache start data).length = st.cache.length :=
                writeSlice_length _ _ _ (by omega)
              rw [ih (start + (e - s))
                { cache := writeSlice st.cache start data
                  cache_index := fun j =>
                    if j = idx then some (start, start + (e - s)) else st.cache_index j }
                (by simp only []; omega)]
              exact hwl

/-- Main invariant of a successful prefetch loop: the buffer keeps its
length, the region below the write cursor is untouched, and every
requested id ends up mapped to an in-bounds offset range whose buffer
contents equal the corresponding range of the external stream. -/
lemma prefetchGo_spec (stream : List Int) (si : List (Nat × Nat)) :
    ∀ (l : List Nat) (start : Nat) (st st2 : CacheState),
      start + (l.map (lenOf si)).sum ≤ st.cache.length →
      prefetchGo stream si l start st = (true, st2) →
      st2.cache.length = st.cache.length ∧
      st2.cache.take start = st.cache.take start ∧
      ∀ i ∈ l, ∃ o, st2.cache_index i = some (o, o + lenOf si i) ∧ start ≤ o ∧
        o + lenOf si i ≤ st2.cache.length ∧
        (st2.cache.drop o).take (lenOf si i)
          = (stream.drop (startOf si i)).take (lenOf si i) := by
  intro l
  induction l with
  | nil =>
      intro start st st2 _ heq
      simp only [prefetchGo, Prod.mk.injEq] at heq
      rw [← heq.2]
      exact ⟨rfl, rfl, by simp⟩
  | cons idx rest ih =>
      intro start st st2 hbound heq
      simp only [List.map_cons, List.sum_cons] at hbound
      cases hsi : si[idx]? with
      | none => simp [prefetchGo, hsi] at heq
      | some se =>
          obtain ⟨s, e⟩ := se
          cases hr : readInto stream s (e - s) with
          | none => simp [prefetchGo, hsi, hr] at heq
          | some data =>
              simp only [prefetchGo, hsi, hr] at heq
              obtain ⟨hlenOf, hstartOf⟩ := lenOf_of_getElem si idx s e hsi
              obtain ⟨hsb, hdval, hdlen⟩ := readInto_spec stream s (e - s) data hr
              have hwl : (writeSlice st.cache start data).length = st.cache.length :=
                writeSlice_length _ _ _ (by omega)
              obtain ⟨ihlen, ihtake, ihblocks⟩ := ih (start + (e - s))
                { cache := writeSlice st.cache start data
                  cache_index := fun j =>
                    if j = idx then some (start, start + (e - s)) else st.cache_index j }
                st2 (by simp only []; omega) heq
              simp only [] at ihlen ihtake
              have hlen2 : st2.cache.length = st.cache.length := by rw [ihlen, hwl]
              have htake2 : st2.cache.take start = st.cache.take start := by
                have h1 := congrArg (List.take start) ihtake
                simp only [List.take_take,
                  Nat.min_eq_left (show start ≤ start + (e - s) by omega)] at h1
                exact h1.trans (writeSlice_take _ _ _ (by omega))
              refine ⟨hlen2, htake2, ?_⟩
              intro i hi
              by_cases hir : i ∈ rest
              · obtain ⟨o, ho1, ho2, ho3, ho4⟩ := ihblocks i hir
                exact ⟨o, ho1, by omega, ho3, ho4⟩
              · have hii : i = idx := by
                  rcases List.mem_cons.mp hi with h | h
                  · exact h
                  · exact absurd h hir
                subst hii
                have hpres := prefetchGo_pres stream si rest (start + (e - s))
                  { cache := writeSlice st.cache start data
                    cache_index := fun j =>
                      if j = i then some (start, start + (e - s)) else st.cache_index j }
                  i hir
                rw [heq] at hpres
                simp at hpres
                refine ⟨start, ?_, Nat.le_refl start, ?_, ?_⟩
                · rw [hpres, hlenOf]
                · rw [hlenOf, hlen2]; omega
                · have e1 : (st2.cache.take (start + (e - s))).drop start
                      = (st2.cache.drop start).take (e - s) := by
                    rw [List.drop_take]
                    congr 1
                    omega
                  have e2 : ((writeSlice st.cache start data).take (start + (e - s))).drop start
                      = ((writeSlice st.cache start data).drop start).take (e - s) := by
                    rw [List.drop_take]
                    congr 1
                    omega
                  have e3 : ((writeSlice st.cache start data).drop start).take data.length
                      = data := writeSlice_read _ _ _ (by omega)
                  rw [hdlen] at e3
                  have : (st2.cache.drop start).take (e - s) = data := by
                    rw [← e1, ihtake, e2, e3]
                  rw [hlenOf, hstartOf, this, hdval]

/-- Python slicing with a nonnegative in-bounds stop is plain drop/take. -/
lemma pySlice_eq_of_le (xs : List Int) (a b : Nat) (hb : b ≤ xs.length) :
    pySlice xs a (b : Int) = (xs.drop a).take (b - a) := by
  simp only [pySlice]
  rw [if_neg (by omega : ¬ ((b : Int) < 0))]
  have h1 : (b : Int).toNat = b := Int.toNat_ofNat b
  rw [h1, Nat.min_eq_left hb, List.drop_take]

lemma prefetch_eq_run (d : TBD) (indices : List Nat)
    (hall : (sortedIds indices).all (fun idx => idx < d.slice_indices.length) = true) :
    d.prefetch indices = ((prefetchRun d indices).1,
      { d with cache := (prefetchRun d indices).2.cache
               cache_index := (prefetchRun d indices).2.cache_index }) := by
  unfold sortedIds at hall
  simp only [TBD.prefetch, prefetchRun, prefetchTotal, sortedIds]
  rw [if_pos hall]

lemma prefetch_invalid (d : TBD) (indices : List Nat)
    (hall : ¬ ((sortedIds indices).all (fun idx => idx < d.slice_indices.length) = true)) :
    d.prefetch indices = (false, d) := by
  unfold sortedIds at hall
  simp only [TBD.prefetch]
  rw [if_neg hall]

lemma prefetch_ok_all (d : TBD) (indices : List Nat)
    (hok : (d.prefetch indices).1 = true) :
    (sortedIds indices).all (fun idx => idx < d.slice_indices.length) = true := by
  by_contra hall
  rw [prefetch_invalid d indices hall] at hok
  simp at hok

lemma all_valid (d : TBD) (indices : List Nat)
    (h : ∀ i ∈ indices, i < d.slice_indices.length) :
    (sortedIds indices).all (fun idx => idx < d.slice_indices.length) = true := by
  rw [List.all_eq_true]
  intro x hx
  have hxm : x ∈ indices := by
    unfold sortedIds at hx
    exact (List.perm_insertionSort _ indices).mem_iff.mp hx
  simpa using h x hxm

/-- Entries of cache_index for ids not in the prefetched list survive the
prefetch call unchanged (prefetch never clears cache_index). -/
lemma prefetch_preserves_other_ids (d : TBD) (ids : List Nat) (j : Nat) (hj : j ∉ ids) :
    ((d.prefetch ids).2).cache_index j = d.cache_index j := by
  by_cases hall : (sortedIds ids).all (fun idx => idx < d.slice_indices.length) = true
  · rw [prefetch_eq_run d ids hall]
    have hjs : j ∉ sortedIds ids := by
      unfold sortedIds
      intro hmem
      exact hj ((List.perm_insertionSort _ ids).mem_iff.mp hmem)
    exact prefetchGo_pres _ _ _ _ _ j hjs
  · rw [prefetch_invalid d ids hall]

/-- The buffer after any prefetch whose index bounds check passes has
length equal to the sum of the requested block lengths, duplicates
counted as often as they occur. -/
lemma prefetch_alloc_length (d : TBD) (ids : List Nat)
    (hall : (sortedIds ids).all (fun idx => idx < d.slice_indices.length) = true) :
    (d.prefetch ids).2.cache.length = (ids.map (lenOf d.slice_indices)).sum := by
  rw [prefetch_eq_run d ids hall]
  simp only []
  unfold prefetchRun
  rw [prefetchGo_cache_length _ _ _ _ _ (by simp [prefetchTotal])]
  simp only [List.length_replicate, prefetchTotal]
  unfold sortedIds
  exact ((List.perm_insertionSort _ ids).map (lenOf d.slice_indices)).sum_eq

/-- Successful-prefetch postcondition, at the level of TBD.prefetch. -/
lemma prefetch_spec (d : TBD) (ids : List Nat) (id : Nat)
    (hid : id ∈ ids) (hok : (d.prefetch ids).1 = true) :
    ∃ o, (d.prefetch ids).2.cache_index id
        = some (o, o + lenOf d.slice_indices id) ∧
      o + lenOf d.slice_indices id ≤ (d.prefetch ids).2.cache.length ∧
      ((d.prefetch ids).2.cache.drop o).take (lenOf d.slice_indices id)
        = (d.stream.drop (startOf d.slice_indices id)).take (lenOf d.slice_indices id) := by
  have hall := prefetch_ok_all d ids hok
  have heqrun := prefetch_eq_run d ids hall
  have hok2 : (prefetchRun d ids).1 = true := by
    rw [heqrun] at hok
    exact hok
  have heq : prefetchGo d.stream d.slice_indices (sortedIds ids) 0
      { cache := List.replicate (prefetchTotal d ids) 0, cache_index := d.cache_index }
      = (true, (prefetchRun d ids).2) := by
    unfold prefetchRun at hok2 ⊢
    rw [← hok2]
  obtain ⟨hlen, htake, hblocks⟩ := prefetchGo_spec d.stream d.slice_indices
    (sortedIds ids) 0 _ _ (by simp [prefetchTotal]) heq
  have hmem : id ∈ sortedIds ids := by
    unfold sortedIds
    exact (List.perm_insertionSort _ ids).mem_iff.mpr hid
  obtain ⟨o, ho1, _, ho3, ho4⟩ := hblocks id hmem
  rw [heqrun]
  exact ⟨o, ho1, ho3, ho4⟩

/-- C1 counterexample: after prefetch([0]) then prefetch([1]) on a
two-block dataset, id 0 (in ids1 but not ids2) is still present in the
CacheIndex with its old offsets, and get(0) succeeds, returning the bytes
of block 1 that now sit at those offsets, instead of failing with
NotPrefetched. -/
theorem c1_counterexample :
    (((((TBD.init [10, 20, 30, 40] [2, 2] 5 1 2 BreakMode.eos).prefetch [0]).2).prefetch
        [1]).2).cache_index 0 = some (0, 2) ∧
    (((((TBD.init [10, 20, 30, 40] [2, 2] 5 1 2 BreakMode.eos).prefetch [0]).2).prefetch
        [1]).2).getitemTarget 0 = some [30, 40] := by decide

/-- C1 (amended): prefetch(ids2) does not invalidate previously valid
ids: every CacheIndex entry whose id is not in ids2 — in particular every
id of ids1 not in ids2 — survives with its old offset range, and a get on
it does not fail with NotPrefetched but reads the new buffer through the
stale offsets. -/
theorem c1_stale_ids_persist (d : TBD) (ids : List Nat) (j : Nat) (hj : j ∉ ids) :
    ((d.prefetch ids).2).cache_index j = d.cache_index j :=
  prefetch_preserves_other_ids d ids j hj

/-- C1 witness: the amended theorem applied to the concrete second
prefetch of the counterexample scenario. -/
theorem c1_stale_ids_persist_witness :
    (((((TBD.init [10, 20, 30, 40] [2, 2] 5 1 2 BreakMode.eos).prefetch [0]).2).prefetch
        [1]).2).cache_index 0
      = ((((TBD.init [10, 20, 30, 40] [2, 2] 5 1 2 BreakMode.eos).prefetch [0]).2)).cache_index 0 :=
  c1_stale_ids_persist (((TBD.init [10, 20, 30, 40] [2, 2] 5 1 2 BreakMode.eos).prefetch
    [0]).2) [1] 0 (by decide)

/-- C2 counterexample: prefetch([0, 0]) on a dataset whose block 0 has
length 2 allocates a buffer of length 4 holding two copies of the block,
not a buffer of length 2 (the sum over the distinct requested blocks). -/
theorem c2_counterexample :
    (((TBD.init [10, 20, 30, 40] [2, 2] 5 1 2 BreakMode.eos).prefetch [0, 0]).2).cache
      = [10, 20, 10, 20] ∧
    lenOf ((TBD.init [10, 20, 30, 40] [2, 2] 5 1 2 BreakMode.eos)).slice_indices 0 = 2 ∧
    (((TBD.init [10, 20, 30, 40] [2, 2] 5 1 2 BreakMode.eos).prefetch [0, 0]).2).cache.length
      = 4 := by decide

/-- C2 (amended): the CacheBuffer allocated by prefetch is sized to the
sum of the requested block lengths with duplicates counted once per
occurrence (a duplicated id is read into the buffer once per occurrence),
and each requested id still maps to exactly one offset range of its
block's length. -/
theorem c2_duplicate_ids (d : TBD) (ids : List Nat)
    (hok : (d.prefetch ids).1 = true) :
    (d.prefetch ids).2.cache.length = (ids.map (lenOf d.slice_indices)).sum ∧
    ∀ i ∈ ids, ∃ o, (d.prefetch ids).2.cache_index i
      = some (o, o + lenOf d.slice_indices i) := by
  refine ⟨prefetch_alloc_length d ids (prefetch_ok_all d ids hok), ?_⟩
  intro i hi
  obtain ⟨o, ho1, _, _⟩ := prefetch_spec d ids i hi hok
  exact ⟨o, ho1⟩

/-- C2 witness: the amended theorem at the duplicate request [0, 0]. -/
theorem c2_duplicate_ids_witness :
    (((TBD.init [10, 20, 30, 40] [2, 2] 5 1 2 BreakMode.eos).prefetch [0, 0]).2).cache.length
      = (([0, 0] : List Nat).map
          (lenOf (TBD.init [10, 20, 30, 40] [2, 2] 5 1 2 BreakMode.eos).slice_indices)).sum ∧
    ∀ i ∈ ([0, 0] : List Nat), ∃ o,
      (((TBD.init [10, 20, 30, 40] [2, 2] 5 1 2 BreakMode.eos).prefetch [0, 0]).2).cache_index i
        = some (o, o + lenOf (TBD.init [10, 20, 30, 40] [2, 2] 5 1 2
            BreakMode.eos).slice_indices i) :=
  c2_duplicate_ids (TBD.init [10, 20, 30, 40] [2, 2] 5 1 2 BreakMode.eos) [0, 0] (by decide)

/-- C3 counterexample: with a stream of length 3 and blocks
[(0,2),(2,4)], prefetch([0]) succeeds; the following prefetch([1]) fails
with OutOfRange, but leaves the buffer replaced by the fresh allocation
[0, 0] (the prior buffer was [10, 20]) while the old CacheIndex entry for
id 0 is still present, so get(0) returns the junk [0, 0]: a partially
updated state, neither the prior valid state nor a cache marked empty. -/
theorem c3_counterexample :
    ((((TBD.init [10, 20, 30] [2, 2] 5 1 2 BreakMode.eos).prefetch [0]).2).prefetch [1]).1
      = false ∧
    (((TBD.init [10, 20, 30] [2, 2] 5 1 2 BreakMode.eos).prefetch [0]).2).cache = [10, 20] ∧
    (((((TBD.init [10, 20, 30] [2, 2] 5 1 2 BreakMode.eos).prefetch [0]).2).prefetch
        [1]).2).cache = [0, 0] ∧
    (((((TBD.init [10, 20, 30] [2, 2] 5 1 2 BreakMode.eos).prefetch [0]).2).prefetch
        [1]).2).cache_index 0 = some (0, 2) ∧
    (((((TBD.init [10, 20, 30] [2, 2] 5 1 2 BreakMode.eos).prefetch [0]).2).prefetch
        [1]).2).getitemTarget 0 = some [0, 0] := by decide

/-- C3 (amended): when a read fails mid-prefetch (after the index bounds
pass), the cache is left in a partially updated state: the buffer has
already been replaced by the fresh allocation sized to the requested
blocks, while all CacheIndex entries for ids outside the request — in
particular all previously valid ids — persist and keep pointing into the
new buffer. -/
theorem c3_failed_prefetch_partial_state (d : TBD) (ids : List Nat)
    (hvalid : ∀ i ∈ ids, i < d.slice_indices.length)
    (hfail : (d.prefetch ids).1 = false) :
    (d.prefetch ids).2.cache.length = (ids.map (lenOf d.slice_indices)).sum ∧
    ∀ j, j ∉ ids → (d.prefetch ids).2.cache_index j = d.cache_index j := by
  refine ⟨prefetch_alloc_length d ids (all_valid d ids hvalid), ?_⟩
  intro j hj
  exact prefetch_preserves_other_ids d ids j hj

/-- C3 witness: the amended theorem at the failing prefetch of the
counterexample scenario. -/
theorem c3_failed_prefetch_partial_state_witness :
    ((((TBD.init [10, 20, 30] [2, 2] 5 1 2 BreakMode.eos).prefetch [0]).2).prefetch
        [1]).2.cache.length
      = (([1] : List Nat).map
          (lenOf (((TBD.init [10, 20, 30] [2, 2] 5 1 2 BreakMode.eos).prefetch
            [0]).2).slice_indices)).sum ∧
    ∀ j, j ∉ ([1] : List Nat) →
      (((((TBD.init [10, 20, 30] [2, 2] 5 1 2 BreakMode.eos).prefetch [0]).2).prefetch
          [1]).2).cache_index j
        = ((((TBD.init [10, 20, 30] [2, 2] 5 1 2 BreakMode.eos).prefetch [0]).2)).cache_index j :=
  c3_failed_prefetch_partial_state
    (((TBD.init [10, 20, 30] [2, 2] 5 1 2 BreakMode.eos).prefetch [0]).2) [1]
    (by decide) (by decide)

/-- C5: for every block id included in a successful prefetch, the target
returned by get equals the exact sub-range [start(id), end(id)) of the
TokenStream, regardless of which other ids (the rest of the list) were
included in the same prefetch call. -/
theorem c5_roundtrip_target (d : TBD) (ids : List Nat) (id : Nat)
    (hid : id ∈ ids) (hok : (d.prefetch ids).1 = true) :
    (d.prefetch ids).2.getitemTarget id
      = some ((d.stream.drop (startOf d.slice_indices id)).take
          (lenOf d.slice_indices id)) := by
  obtain ⟨o, ho1, ho3, ho4⟩ := prefetch_spec d ids id hid hok
  simp only [TBD.getitemTarget, ho1]
  rw [pySlice_eq_of_le _ _ _ ho3]
  rw [Nat.add_sub_cancel_left]
  rw [ho4]

lemma getD_take (xs : List Int) (m i : Nat) (him : i < m) :
    (xs.take m).getD i 0 = xs.getD i 0 := by
  rw [List.getD_eq_getElem?_getD, List.getD_eq_getElem?_getD, List.getElem?_take,
    if_pos him]

lemma getD_drop_take (xs : List Int) (a k i : Nat) (hik : i < k) :
    ((xs.drop a).take k).getD i 0 = xs.getD (a + i) 0 := by
  rw [List.getD_eq_getElem?_getD, List.getD_eq_getElem?_getD, List.getElem?_take,
    if_pos hik, List.getElem?_drop]

/-- C4 (amended): for a cached block with in-bounds CacheIndex entry
[s, e), s < e ≤ buffer length, get with target generation returns
source/target/past_target of length e - s satisfying all the shift and
sentinel rules of the claim — provided the block is not a length-1 block
sitting at buffer offset 0 (for s = 0, e = 1 the Python slice
cache[0 : e-2] has a negative stop and past_target degenerates, see the
counterexample). -/
theorem c4_source_past_target (d : TBD) (id s e : Nat)
    (hidx : d.cache_index id = some (s, e)) (hse : s < e) (hL : e ≤ d.cache.length)
    (hx : ¬(s = 0 ∧ e = 1)) :
    ∃ src tgt pt, d.getitemFull id = some (src, tgt, pt) ∧
      src.length = e - s ∧ tgt.length = e - s ∧ pt.length = e - s ∧
      (∀ k, 1 ≤ k → k < e - s → src.getD k 0 = tgt.getD (k - 1) 0) ∧
      (s = 0 → src.getD 0 0 = d.eos) ∧
      (0 < s → src.getD 0 0 = d.cache.getD (s - 1) 0) ∧
      (∀ k, 2 ≤ k → k < e - s → pt.getD k 0 = tgt.getD (k - 2) 0) ∧
      (s = 0 → pt.getD 0 0 = d.pad ∧ pt.getD 1 0 = d.eos) ∧
      (s = 1 → pt.getD 0 0 = d.eos ∧
        ∀ k, 1 ≤ k → k < e - s → pt.getD k 0 = d.cache.getD (k - 1) 0) ∧
      (2 ≤ s → ∀ k, k < e - s → pt.getD k 0 = d.cache.getD (s - 2 + k) 0) := by
  by_cases hs0 : s = 0
  · subst hs0
    have he2 : 2 ≤ e := by omega
    have hsrc : pySlice d.cache 0 ((e : Int) - 1) = d.cache.take (e - 1) := by
      rw [show ((e : Int) - 1) = ((e - 1 : Nat) : Int) by omega,
        pySlice_eq_of_le _ _ _ (by omega)]
      simp
    have hpt2 : pySlice d.cache 0 ((e : Int) - 2) = d.cache.take (e - 2) := by
      rw [show ((e : Int) - 2) = ((e - 2 : Nat) : Int) by omega,
        pySlice_eq_of_le _ _ _ (by omega)]
      simp
    have htgt : pySlice d.cache 0 (e : Int) = d.cache.take e := by
      rw [pySlice_eq_of_le _ _ _ hL]
      simp
    refine ⟨d.eos :: d.cache.take (e - 1), d.cache.take e,
      d.pad :: d.eos :: d.cache.take (e - 2), ?_, ?_, ?_, ?_, ?_, ?_, ?_, ?_, ?_, ?_, ?_⟩
    · simp only [TBD.getitemFull, hidx]
      rw [if_true, hsrc, htgt, hpt2]
    · simp [List.length_take]; omega
    · simp [List.length_take]; omega
    · simp [List.length_take]; omega
    · intro k h1 h2
      obtain ⟨k2, rfl⟩ : ∃ k2, k = k2 + 1 := ⟨k - 1, by omega⟩
      rw [List.getD_cons_succ, getD_take _ _ _ (by omega),
        show k2 + 1 - 1 = k2 by omega, getD_take _ _ _ (by omega)]
    · intro _
      rw [List.getD_cons_zero]
    · intro h0
      exact absurd h0 (by omega)
    · intro k h1 h2
      obtain ⟨k2, rfl⟩ : ∃ k2, k = k2 + 2 := ⟨k - 2, by omega⟩
      rw [List.getD_cons_succ, List.getD_cons_succ, getD_take _ _ _ (by omega),
        show k2 + 2 - 2 = k2 by omega, getD_take _ _ _ (by omega)]
    · intro _
      exact ⟨List.getD_cons_zero, by rw [List.getD_cons_succ, List.getD_cons_zero]⟩
    · intro h1
      exact absurd h1 (by omega)
    · intro h2
      exact absurd h2 (by omega)
  · by_cases hs1 : s = 1
    · subst hs1
      have he2 : 2 ≤ e := by omega
      have hsrc : pySlice d.cache (1 - 1) ((e : Int) - 1) = d.cache.take (e - 1) := by
        rw [show ((e : Int) - 1) = ((e - 1 : Nat) : Int) by omega,
          pySlice_eq_of_le _ _ _ (by omega)]
        simp
      have hpt2 : pySlice d.cache 0 ((e : Int) - 2) = d.cache.take (e - 2) := by
        rw [show ((e : Int) - 2) = ((e - 2 : Nat) : Int) by omega,
          pySlice_eq_of_le _ _ _ (by omega)]
        simp
      have htgt : pySlice d.cache 1 (e : Int) = (d.cache.drop 1).take (e - 1) :=
        pySlice_eq_of_le _ _ _ hL
      refine ⟨d.cache.take (e - 1), (d.cache.drop 1).take (e - 1),
        d.eos :: d.cache.take (e - 2), ?_, ?_, ?_, ?_, ?_, ?_, ?_, ?_, ?_, ?_, ?_⟩
      · simp only [TBD.getitemFull, hidx]
        rw [if_true, hsrc, htgt, hpt2, if_neg hs0]
      · simp [List.length_take]; omega
      · simp [List.length_take, List.length_drop]; omega
      · simp [List.length_take]; omega
      · intro k h1 h2
        rw [getD_take _ _ _ (by omega), getD_drop_take _ _ _ _ (by omega)]
        congr 1
        omega
      · intro h0
        exact absurd h0 (by omega)
      · intro _
        rw [getD_take _ _ _ (by omega)]
      · intro k h1 h2
        obtain ⟨k2, rfl⟩ : ∃ k2, k = k2 + 2 := ⟨k - 2, by omega⟩
        rw [List.getD_cons_succ, getD_take _ _ _ (by omega),
          getD_drop_take _ _ _ _ (by omega)]
        congr 1
        omega
      · intro h0
        exact absurd h0 (by omega)
      · intro _
        refine ⟨List.getD_cons_zero, ?_⟩
        intro k h1 h2
        obtain ⟨k2, rfl⟩ : ∃ k2, k = k2 + 1 := ⟨k - 1, by omega⟩
        rw [List.getD_cons_succ, getD_take _ _ _ (by omega)]
        congr 1
      · intro h2
        exact absurd h2 (by omega)
    · have hs2 : 2 ≤ s := by omega
      have hsrc : pySlice d.cache (s - 1) ((e : Int) - 1)
          = (d.cache.drop (s - 1)).take (e - s) := by
        rw [show ((e : Int) - 1) = ((e - 1 : Nat) : Int) by omega,
          pySlice_eq_of_le _ _ _ (by omega), show e - 1 - (s - 1) = e - s by omega]
      have hpt2 : pySlice d.cache (s - 2) ((e : Int) - 2)
          = (d.cache.drop (s - 2)).take (e - s) := by
        rw [show ((e : Int) - 2) = ((e - 2 : Nat) : Int) by omega,
          pySlice_eq_of_le _ _ _ (by omega), show e - 2 - (s - 2) = e - s by omega]
      have htgt : pySlice d.cache s (e : Int) = (d.cache.drop s).take (e - s) :=
        pySlice_eq_of_le _ _ _ hL
      refine ⟨(d.cache.drop (s - 1)).take (e - s), (d.cache.drop s).take (e - s),
        (d.cache.drop (s - 2)).take (e - s), ?_, ?_, ?_, ?_, ?_, ?_, ?_, ?_, ?_, ?_, ?_⟩
      · simp only [TBD.getitemFull, hidx]
        rw [if_neg hs0, if_neg hs1, hsrc, htgt, hpt2]
      · simp [List.length_take, List.length_drop]; omega
      · simp [List.length_take, List.length_drop]; omega
      · simp [List.length_take, List.length_drop]; omega
      · intro k h1 h2
        rw [getD_drop_take _ _ _ _ (by omega), getD_drop_take _ _ _ _ (by omega)]
        congr 1
        omega
      · intro h0
        exact absurd h0 hs0
      · intro _
        rw [getD_drop_take _ _ _ _ (by omega)]
        congr 1
      · intro k h1 h2
        rw [getD_drop_take _ _ _ _ (by omega), getD_drop_take _ _ _ _ (by omega)]
        congr 1
        omega
      · intro h0
        exact absurd h0 hs0
      · intro h1
        exact absurd h1 hs1
      · intro _ k h2
        rw [getD_drop_take _ _ _ _ (by omega)]

/-- C4 counterexample: a length-1 block cached at buffer offset 0
(CacheIndex entry (0, 1), so e - s = 1): get returns
past_target = [pad, eos] of length 2, not length e - s = 1, because the
Python slice cache[0 : e-2] = cache[0 : -1] has a negative stop. -/
theorem c4_counterexample :
    (((TBD.init [7] [1] 5 9 8 BreakMode.eos).prefetch [0]).2).cache_index 0
      = some (0, 1) ∧
    (((TBD.init [7] [1] 5 9 8 BreakMode.eos).prefetch [0]).2).getitemFull 0
      = some ([8], [7], [9, 8]) := by decide

/-- C4 witness: the amended theorem at the cached block (2, 4) of a
concrete two-block prefetch. -/
theorem c4_source_past_target_witness :
    ∃ src tgt pt,
      (((TBD.init [10, 20, 30, 40] [2, 2] 5 1 2 BreakMode.eos).prefetch
          [0, 1]).2).getitemFull 1 = some (src, tgt, pt) ∧
      src.length = 4 - 2 ∧ tgt.length = 4 - 2 ∧ pt.length = 4 - 2 ∧
      (∀ k, 1 ≤ k → k < 4 - 2 → src.getD k 0 = tgt.getD (k - 1) 0) ∧
      ((2 : Nat) = 0 →
        src.getD 0 0 = (((TBD.init [10, 20, 30, 40] [2, 2] 5 1 2 BreakMode.eos).prefetch
          [0, 1]).2).eos) ∧
      ((0 : Nat) < 2 →
        src.getD 0 0 = (((TBD.init [10, 20, 30, 40] [2, 2] 5 1 2 BreakMode.eos).prefetch
          [0, 1]).2).cache.getD (2 - 1) 0) ∧
      (∀ k, 2 ≤ k → k < 4 - 2 → pt.getD k 0 = tgt.getD (k - 2) 0) ∧
      ((2 : Nat) = 0 →
        pt.getD 0 0 = (((TBD.init [10, 20, 30, 40] [2, 2] 5 1 2 BreakMode.eos).prefetch
          [0, 1]).2).pad ∧
        pt.getD 1 0 = (((TBD.init [10, 20, 30, 40] [2, 2] 5 1 2 BreakMode.eos).prefetch
          [0, 1]).2).eos) ∧
      ((2 : Nat) = 1 →
        pt.getD 0 0 = (((TBD.init [10, 20, 30, 40] [2, 2] 5 1 2 BreakMode.eos).prefetch
          [0, 1]).2).eos ∧
        ∀ k, 1 ≤ k → k < 4 - 2 →
          pt.getD k 0 = (((TBD.init [10, 20, 30, 40] [2, 2] 5 1 2 BreakMode.eos).prefetch
            [0, 1]).2).cache.getD (k - 1) 0) ∧
      ((2 : Nat) ≤ 2 → ∀ k, k < 4 - 2 →
        pt.getD k 0 = (((TBD.init [10, 20, 30, 40] [2, 2] 5 1 2 BreakMode.eos).prefetch
          [0, 1]).2).cache.getD (2 - 2 + k) 0) :=
  c4_source_past_target
    (((TBD.init [10, 20, 30, 40] [2, 2] 5 1 2 BreakMode.eos).prefetch [0, 1]).2)
    1 2 4 (by decide) (by decide) (by decide) (by decide)

/-- C5 witness: blocks (0,2) and (2,4) prefetched together; get(1)
returns the stream range [2, 4). -/
theorem c5_roundtrip_target_witness :
    ((TBD.init [10, 20, 30, 40] [2, 2] 5 1 2 BreakMode.eos).prefetch [0, 1]).2.getitemTarget 1
      = some ((([10, 20, 30, 40] : List Int).drop
          (startOf (TBD.init [10, 20, 30, 40] [2, 2] 5 1 2 BreakMode.eos).slice_indices 1)).take
          (lenOf (TBD.init [10, 20, 30, 40] [2, 2] 5 1 2 BreakMode.eos).slice_indices 1)) :=
  c5_roundtrip_target (TBD.init [10, 20, 30, 40] [2, 2] 5 1 2 BreakMode.eos) [0, 1] 1
    (by decide) (by decide)
